import Mathlib

/-!
Verification of the data-size/speed engine of the repository
(`data/size.go`, `data/speed.go`, `internal/slices/slices.go`).

Go strings are embedded as lists of characters (`GoStr`); the unit
vocabulary and every string manipulated here is ASCII, so one Go rune is
one `Char`.  Machine integers (`int64`) are embedded as `Int` together
with explicit range bounds `minInt64`/`maxInt64`; Go's truncating integer
division is `Int.tdiv`.  Fallible Go functions returning `(T, error)` are
embedded as `Except GoErr T`, with `GoErr` standing for the error
taxonomy (the concrete message strings carry no further information used
by any caller).
-/

namespace RealGo

/-- Go strings as their sequence of runes (ASCII here, one rune = one `Char`). -/
abbrev GoStr := List Char

/-- Largest value of Go's int64. -/
def maxInt64 : Int := 9223372036854775807

/-- Smallest value of Go's int64. -/
def minInt64 : Int := -9223372036854775808

/-- Error taxonomy of the package (stands for the `error` values produced
by `fmt.Errorf`/`errors.New` in the source; callers only test nil-ness). -/
inductive GoErr
  | invalidFormat
  | badNumeral
  | outOfRange
  | invalidUnit
  | overflow
  | negativeDuration
  | negativeAmount
deriving DecidableEq

instance {α β : Type} [DecidableEq α] [DecidableEq β] : DecidableEq (Except α β) := fun a b =>
  match a, b with
  | .ok x, .ok y =>
    if h : x = y then .isTrue (by rw [h]) else .isFalse (by simp [h])
  | .error x, .error y =>
    if h : x = y then .isTrue (by rw [h]) else .isFalse (by simp [h])
  | .ok _, .error _ => .isFalse (by simp)
  | .error _, .ok _ => .isFalse (by simp)

/-- ASCII fragment of Go's `unicode.IsDigit` (every input reaching it in
the modelled fragment is ASCII). -/
def isDigitGo (c : Char) : Bool := 48 ≤ c.toNat && c.toNat ≤ 57

/-- ASCII fragment of Go's `unicode.IsLower`. -/
def isLowerGo (c : Char) : Bool := 97 ≤ c.toNat && c.toNat ≤ 122

/-- ASCII fragment of Go's `unicode.IsSpace` (the whitespace that can occur
in the modelled inputs). -/
def isSpaceGo (c : Char) : Bool := c = ' ' || c = '\t' || c = '\n' || c = '\r'

/-- ASCII fragment of Go's `unicode.ToUpper`. -/
def toUpperGo (c : Char) : Char := if isLowerGo c then Char.ofNat (c.toNat - 32) else c

/-- Embedding of `strings.TrimSpace`: drop whitespace from both ends. -/
def trimSpace (s : GoStr) : GoStr :=
  ((s.dropWhile isSpaceGo).reverse.dropWhile isSpaceGo).reverse

/-- Value of a big-endian run of ASCII digit characters (the accumulation
loop of `strconv.ParseUint`). -/
def decValueNat (s : GoStr) : Nat :=
  s.foldl (fun a d => 10 * a + (d.toNat - 48)) 0

/-- Digit-run stage of `strconv.ParseInt`: a nonempty all-digit run is
read as its (sign-adjusted) decimal value, range-checked against the
signed 64-bit bounds. -/
def parseIntCore (neg : Bool) (digits : GoStr) : Except GoErr Int :=
  if digits = [] then .error .badNumeral
  else if digits.all isDigitGo then
    let v : Int := if neg then -(decValueNat digits : Int) else (decValueNat digits : Int)
    if v < minInt64 ∨ maxInt64 < v then .error .outOfRange else .ok v
  else .error .badNumeral

/-- Extensional embedding of `strconv.ParseInt(s, 10, 64)`: an optional
sign followed by a nonempty ASCII digit run denotes its decimal value;
a value outside the signed 64-bit range is a range error, anything else
malformed is a syntax error.  (Go computes the magnitude with running
cutoff checks; for base 10 / bit size 64 that is extensionally the final
range check modelled here.) -/
def parseInt64 (s : GoStr) : Except GoErr Int :=
  match s with
  | [] => .error .badNumeral
  | '-' :: rest => parseIntCore true rest
  | '+' :: rest => parseIntCore false rest
  | other => parseIntCore false other

/-! ## Size constants (`data/size.go`, lines 41-78)

`Size` is an `int64` count of bytes; each constant is embedded as the
`Int` it evaluates to.  Division here is exact, so Go's constant
(truncating) division agrees with `Int` division. -/

def Byte : Int := 1

def KB : Int := 1000 * Byte
def MB : Int := 1000 * KB
def GB : Int := 1000 * MB
def TB : Int := 1000 * GB
def PB : Int := 1000 * TB
def EB : Int := 1000 * PB

def KiB : Int := 1024 * Byte
def MiB : Int := 1024 * KiB
def GiB : Int := 1024 * MiB
def TiB : Int := 1024 * GiB
def PiB : Int := 1024 * TiB
def EiB : Int := 1024 * PiB

def Kb : Int := KB / 8
def Mb : Int := MB / 8
def Gb : Int := GB / 8
def Tb : Int := TB / 8
def Pb : Int := PB / 8
def Eb : Int := EB / 8

def Kib : Int := KiB / 8
def Mib : Int := MiB / 8
def Gib : Int := GiB / 8
def Tib : Int := TiB / 8
def Pib : Int := PiB / 8

/-- Embedding of `UnitTable` (`data/size.go`, lines 151-157).  A Go map
with distinct keys is embedded as an association list; lookup order is
irrelevant because the keys are pairwise distinct. -/
def UnitTable : List (GoStr × Int) :=
  [("B".toList, Byte),
   ("kB".toList, KB), ("KB".toList, KB), ("MB".toList, MB), ("GB".toList, GB),
   ("TB".toList, TB), ("PB".toList, PB), ("EB".toList, EB),
   ("kiB".toList, KiB), ("KiB".toList, KiB), ("MiB".toList, MiB), ("GiB".toList, GiB),
   ("TiB".toList, TiB), ("PiB".toList, PiB), ("EiB".toList, EiB),
   ("kb".toList, Kb), ("Kb".toList, Kb), ("Mb".toList, Mb), ("Gb".toList, Gb),
   ("Tb".toList, Tb), ("Pb".toList, Pb), ("Eb".toList, Eb),
   ("kib".toList, Kib), ("Kib".toList, Kib), ("Mib".toList, Mib), ("Gib".toList, Gib),
   ("Tib".toList, Tib), ("Pib".toList, Pib)]

/-- Map lookup `UnitTable[unit]`. -/
def unitLookup (u : GoStr) : Option Int :=
  (UnitTable.find? (fun e => e.1 == u)).map (fun e => e.2)

/-- Position one past the last digit of `s`; `0` when `s` has no digit.
Embeds `strings.LastIndexFunc(s, unicode.IsDigit) + 1` (`data/size.go`,
line 85), with Go's `-1` for "no digit" becoming `0`. -/
def numEnd (s : GoStr) : Nat :=
  (s.reverse.dropWhile (fun c => !isDigitGo c)).length

/-- Lowercase normalization of the input unit (`data/size.go`, lines
100-108): when the suffix is entirely lowercase, upper-case every rune
except `i`.  (`strings.Map` never drops a rune here since the mapping
never returns a negative rune.) -/
def normalizeUnit (u : GoStr) : GoStr :=
  if u.all isLowerGo then
    u.map (fun r => if r = 'i' then r else toUpperGo r)
  else u

/-- Overflow-guarded scaling step of `ParseSize` (`data/size.go`, lines
115-122): the guards compare against `math.MaxInt64/mul` and
`math.MinInt64/mul` (Go's truncating `int64` division) before
multiplying. -/
def checkedScale (size mul : Int) : Except GoErr Int :=
  if size > 0 && size > maxInt64.tdiv mul then .error .overflow
  else if size < 0 && size < minInt64.tdiv mul then .error .overflow
  else .ok (size * mul)

/-- Embedding of `ParseSize` (`data/size.go`, lines 83-123). -/
def ParseSize (s : GoStr) : Except GoErr Int :=
  let trimmed := trimSpace s
  let nEnd := numEnd trimmed
  if nEnd = 0 then .error .invalidFormat
  else
    let num := trimmed.take nEnd
    let inputUnit := trimmed.drop nEnd
    match parseInt64 num with
    | .error e => .error e
    | .ok size =>
      let unit0 := trimSpace inputUnit
      let unit1 := if unit0 = [] then "B".toList else unit0
      let unit := normalizeUnit unit1
      match unitLookup unit with
      | none => .error .invalidUnit
      | some mul => checkedScale size mul

/-- Embedding of `slices.OptionalValue` (`internal/slices/slices.go`,
lines 24-29), at the `int` instance used for precision lists. -/
def OptionalValue (d : Int) (s : List Int) : Int :=
  match s with
  | x :: _ => x
  | [] => d

/-- Little-endian decimal digits, structurally recursive on a fuel
argument so that kernel reduction can evaluate it; fuel `n` always
suffices because the argument shrinks by a factor of 10 each step. -/
def natDigitsRevAux : Nat → Nat → List Nat
  | _, 0 => []
  | 0, _ + 1 => []
  | fuel + 1, n + 1 => ((n + 1) % 10) :: natDigitsRevAux fuel ((n + 1) / 10)

/-- Little-endian decimal digits of a natural number (empty for 0). -/
def natDigitsRev (n : Nat) : List Nat := natDigitsRevAux n n

/-- Decimal digit characters of a natural number, most significant first;
`0` prints as "0".  This is the rendering shared by Go's `fmt` `%d` and
`big.Int.String` for the values arising here. -/
def natToDecChars (n : Nat) : GoStr :=
  if n = 0 then ['0']
  else (natDigitsRev n).reverse.map (fun d => Char.ofNat (48 + d))

/-- Decimal rendering of an integer, `-` for negatives (Go `%d` /
`big.Int.String`). -/
def intToDecChars (v : Int) : GoStr :=
  if v < 0 then '-' :: natToDecChars (-v).toNat else natToDecChars v.toNat

/-- Mathematical reading of a decimal string (unbounded, no 64-bit
range restriction): used to state that a rendered string is the exact
decimal representation of an integer. -/
def decDecode (s : GoStr) : Int :=
  match s with
  | '-' :: rest => -(decValueNat rest : Int)
  | other => (decValueNat other : Int)

/-- Embedding of `Size.FormatUnitString` (`data/size.go`, lines 170-203)
on the branches with integral output: the zero value, the byte base unit
`"B"`, and the bit base unit `"b"` (where Go multiplies by 8 in
`math/big` unbounded arithmetic).  The remaining branch (table units,
lines 196-202) renders a float with `%.*f` and is outside the modelled
fragment, as is a negative requested precision (Go `%0*d` width
semantics); both yield `none`. -/
def FormatUnitString (d : Int) (unit : GoStr) (precision : List Int) : Option GoStr :=
  if d = 0 then some ('0' :: ' ' :: unit)
  else
    let prec := OptionalValue 0 precision
    if unit = "B".toList then
      if prec = 0 then some (intToDecChars d ++ ' ' :: unit)
      else if 0 < prec then
        some (intToDecChars d ++ '.' :: List.replicate prec.toNat '0' ++ ' ' :: unit)
      else none
    else if unit = "b".toList then
      let bits := 8 * d
      if prec = 0 then some (intToDecChars bits ++ ' ' :: unit)
      else if 0 < prec then
        some (intToDecChars bits ++ '.' :: List.replicate prec.toNat '0' ++ ' ' :: unit)
      else none
    else none

/-- Embedding of the `pair` struct (`data/size.go`, lines 260-263). -/
structure UnitPair where
  name : GoStr
  value : Int
deriving DecidableEq

/-- Embedding of `slices.LastItemFunc` (`internal/slices/slices.go`,
lines 7-22) at the `pair` instance: the loop breaks at the first element
failing `f`, so `idx` ends at the last element of the longest qualifying
initial run, staying `0` (hence `s[0]`) when the first element already
fails; the empty slice yields the zero value. -/
def LastItemFunc (s : List UnitPair) (f : UnitPair → Bool) : UnitPair :=
  match s with
  | [] => { name := [], value := 0 }
  | x :: xs => ((x :: xs).takeWhile f).getLastD x

/-- Formatting family lists (`data/size.go`, lines 265-301). -/
def metricBytes : List UnitPair :=
  [⟨"B".toList, Byte⟩, ⟨"kB".toList, KB⟩, ⟨"MB".toList, MB⟩, ⟨"GB".toList, GB⟩,
   ⟨"TB".toList, TB⟩, ⟨"PB".toList, PB⟩, ⟨"EB".toList, EB⟩]

/-- Metric bit family list (`data/size.go`, lines 275-283). -/
def metricBits : List UnitPair :=
  [⟨"b".toList, 0⟩, ⟨"kb".toList, Kb⟩, ⟨"Mb".toList, Mb⟩, ⟨"Gb".toList, Gb⟩,
   ⟨"Tb".toList, Tb⟩, ⟨"Pb".toList, Pb⟩, ⟨"Eb".toList, Eb⟩]

/-- Binary byte family list (`data/size.go`, lines 284-292). -/
def binaryBytes : List UnitPair :=
  [⟨"B".toList, Byte⟩, ⟨"kiB".toList, KiB⟩, ⟨"MiB".toList, MiB⟩, ⟨"GiB".toList, GiB⟩,
   ⟨"TiB".toList, TiB⟩, ⟨"PiB".toList, PiB⟩, ⟨"EiB".toList, EiB⟩]

/-- Binary bit family list (`data/size.go`, lines 293-300). -/
def binaryBits : List UnitPair :=
  [⟨"b".toList, 0⟩, ⟨"kib".toList, Kib⟩, ⟨"Mib".toList, Mib⟩, ⟨"Gib".toList, Gib⟩,
   ⟨"Tib".toList, Tib⟩, ⟨"Pib".toList, Pib⟩]

/-- The closed enumeration `FormatUnit` (`data/size.go`, lines 20-31).
Go declares it as an `int` with four named constants; every other value
makes `bestUnit` panic, so the type is embedded as the closed enum. -/
inductive FormatUnit
  | FormatBinaryByte
  | FormatMetricByte
  | FormatBinaryBit
  | FormatMetricBit
deriving DecidableEq

/-- The `switch` selecting a family list inside `bestUnit`
(`data/size.go`, lines 309-322). -/
def familyList : FormatUnit → List UnitPair
  | .FormatBinaryByte => binaryBytes
  | .FormatMetricByte => metricBytes
  | .FormatBinaryBit => binaryBits
  | .FormatMetricBit => metricBits

/-- The pair selected by `bestUnit` (`data/size.go`, lines 324-326):
`islices.LastItemFunc(unitList, func(a pair) bool { return a.value <= d })`. -/
def bestPair (d : Int) (u : FormatUnit) : UnitPair :=
  LastItemFunc (familyList u) (fun a => decide (a.value ≤ d))

/-- Embedding of `Size.bestUnit` (`data/size.go`, lines 308-329): the
name of the selected pair. -/
def bestUnit (d : Int) (u : FormatUnit) : GoStr :=
  (bestPair d u).name

/-- Modelled from the spec: the best-unit selection as the specification
states it — "the name of the largest unit whose threshold is ≤ the
value", with "the base unit always qualifying as the fallback for values
below every other threshold".  Stated with `filter`/`getLast?` so it is
the spec's reading, to be compared with the source's scan in `bestUnit`. -/
def bestUnitSpec (d : Int) (u : FormatUnit) : GoStr :=
  let L := familyList u
  match (L.filter (fun p => decide (p.value ≤ d))).getLast? with
  | some p => p.name
  | none => (L.headD { name := [], value := 0 }).name

/-- Ticks of `time.Duration` per second (`time.Second`). -/
def second : Int := 1000000000

/-- Embedding of `NewSpeedE` (`data/speed.go`, lines 26-47).  `amount`
and `dur` are the `int64` values of the `Size` and `time.Duration`
arguments; the successful result is the nonnegative `int64` quotient,
which the source re-types as `Speed` (`uint64`) without changing the
value since it lies in `[0, 2^63)`. -/
def NewSpeedE (amount : Int) (dur : Int) : Except GoErr Int :=
  if dur < 0 then .error .negativeDuration
  else if dur = 0 then .ok 0
  else if amount < 0 then .error .negativeAmount
  else if amount > maxInt64.tdiv second then .error .overflow
  else .ok ((amount * second).tdiv dur)

/-! ## Helper lemmas: decimal rendering round-trips through parsing -/

theorem natDigitsRevAux_eq (fuel n : Nat) (h : n ≤ fuel) :
    natDigitsRevAux fuel n = Nat.digits 10 n := by
  induction fuel generalizing n with
  | zero =>
    interval_cases n
    simp [natDigitsRevAux]
  | succ f ih =>
    cases n with
    | zero => simp [natDigitsRevAux]
    | succ k =>
      rw [natDigitsRevAux, Nat.digits_def' (by norm_num : (1:Nat) < 10) (Nat.succ_pos k)]
      congr 1
      exact ih _ (by omega)

theorem natDigitsRev_eq (n : Nat) : natDigitsRev n = Nat.digits 10 n :=
  natDigitsRevAux_eq n n le_rfl

theorem digitChar_toNat (d : Nat) (h : d < 10) : (Char.ofNat (48 + d)).toNat = 48 + d := by
  interval_cases d <;> decide

theorem isDigitGo_digitChar (d : Nat) (h : d < 10) : isDigitGo (Char.ofNat (48 + d)) = true := by
  interval_cases d <;> decide

theorem natToDecChars_all_digits (n : Nat) :
    ∀ c ∈ natToDecChars n, isDigitGo c = true := by
  intro c hc
  unfold natToDecChars at hc
  rw [natDigitsRev_eq] at hc
  split at hc
  · simp at hc
    subst hc
    decide
  · simp only [List.mem_map, List.mem_reverse] at hc
    obtain ⟨d, hd, rfl⟩ := hc
    exact isDigitGo_digitChar d (Nat.digits_lt_base (by norm_num) hd)

theorem natToDecChars_ne_nil (n : Nat) : natToDecChars n ≠ [] := by
  unfold natToDecChars
  rw [natDigitsRev_eq]
  split
  · simp
  · simp only [ne_eq, List.map_eq_nil_iff, List.reverse_eq_nil_iff]
    exact Nat.digits_ne_nil_iff_ne_zero.mpr (by assumption)

theorem decValueNat_digit_list (L : List Nat) (hL : ∀ d ∈ L, d < 10) :
    decValueNat (L.reverse.map (fun d => Char.ofNat (48 + d))) = Nat.ofDigits 10 L := by
  induction L with
  | nil => simp [decValueNat, Nat.ofDigits]
  | cons d T ih =>
    have hd : d < 10 := hL d (by simp)
    have hT : ∀ x ∈ T, x < 10 := fun x hx => hL x (by simp [hx])
    simp only [List.reverse_cons, List.map_append, List.map_cons, List.map_nil]
    unfold decValueNat
    rw [List.foldl_append]
    have hfold := ih hT
    unfold decValueNat at hfold
    rw [hfold, Nat.ofDigits_cons]
    simp only [List.foldl_cons, List.foldl_nil]
    rw [digitChar_toNat d hd]
    omega

theorem decValueNat_natToDecChars (n : Nat) : decValueNat (natToDecChars n) = n := by
  unfold natToDecChars
  rw [natDigitsRev_eq]
  split
  · subst n
    decide
  · rw [decValueNat_digit_list (Nat.digits 10 n)
      (fun d hd => Nat.digits_lt_base (by norm_num) hd)]
    exact Nat.ofDigits_digits 10 n

theorem isDigitGo_ne_signs {c : Char} (h : isDigitGo c = true) :
    c ≠ '-' ∧ c ≠ '+' ∧ isSpaceGo c = false := by
  unfold isDigitGo at h
  simp only [Bool.and_eq_true, decide_eq_true_eq] at h
  have hm : c ≠ '-' := by rintro rfl; exact absurd h (by decide)
  have hp : c ≠ '+' := by rintro rfl; exact absurd h (by decide)
  have hsp : c ≠ ' ' := by rintro rfl; exact absurd h (by decide)
  have htb : c ≠ '\t' := by rintro rfl; exact absurd h (by decide)
  have hnl : c ≠ '\n' := by rintro rfl; exact absurd h (by decide)
  have hcr : c ≠ '\r' := by rintro rfl; exact absurd h (by decide)
  refine ⟨hm, hp, ?_⟩
  simp [isSpaceGo, hsp, htb, hnl, hcr]

theorem parseIntCore_roundtrip (neg : Bool) (m : Nat)
    (hv : minInt64 ≤ (if neg then -(m : Int) else (m : Int)))
    (hv2 : (if neg then -(m : Int) else (m : Int)) ≤ maxInt64) :
    parseIntCore neg (natToDecChars m) = .ok (if neg then -(m : Int) else (m : Int)) := by
  unfold parseIntCore
  rw [if_neg (by simpa using natToDecChars_ne_nil m),
    if_pos (List.all_eq_true.mpr (natToDecChars_all_digits m))]
  simp only [decValueNat_natToDecChars]
  rw [if_neg (by omega)]

theorem parseInt64_intToDecChars (n : Int) (h1 : minInt64 ≤ n) (h2 : n ≤ maxInt64) :
    parseInt64 (intToDecChars n) = .ok n := by
  by_cases hn : n < 0
  · have hcast : ((-n).toNat : Int) = -n := Int.toNat_of_nonneg (by omega)
    unfold intToDecChars
    rw [if_pos hn]
    have h := parseIntCore_roundtrip true (-n).toNat (by simp [hcast]; omega)
      (by simp [hcast]; omega)
    simp only [if_pos rfl, hcast] at h
    obtain ⟨c, t, hct⟩ := List.exists_cons_of_ne_nil (natToDecChars_ne_nil (-n).toNat)
    rw [hct] at h ⊢
    show parseIntCore true (c :: t) = .ok n
    rw [h]
    norm_num
  · push_neg at hn
    have hcast : (n.toNat : Int) = n := Int.toNat_of_nonneg hn
    unfold intToDecChars
    rw [if_neg (by omega)]
    have h := parseIntCore_roundtrip false n.toNat (by simp [hcast]; omega)
      (by simp [hcast]; omega)
    simp only [Bool.false_eq_true, if_neg, hcast] at h
    obtain ⟨c, t, hct⟩ := List.exists_cons_of_ne_nil (natToDecChars_ne_nil n.toNat)
    have hcdig : isDigitGo c = true := by
      apply natToDecChars_all_digits n.toNat
      rw [hct]; simp
    obtain ⟨hm, hp, _⟩ := isDigitGo_ne_signs hcdig
    rw [hct] at h ⊢
    unfold parseInt64
    split
    · rename_i heq
      exact absurd heq.symm (by simp [List.cons_ne_nil])
    · rename_i rest heq
      exact absurd (List.head_eq_of_cons_eq heq) hm
    · rename_i rest heq
      exact absurd (List.head_eq_of_cons_eq heq) hp
    · exact h

theorem decDecode_intToDecChars (n : Int) : decDecode (intToDecChars n) = n := by
  by_cases hn : n < 0
  · unfold intToDecChars
    rw [if_pos hn]
    simp only [decDecode, decValueNat_natToDecChars]
    omega
  · push_neg at hn
    unfold intToDecChars
    rw [if_neg (by omega)]
    obtain ⟨c, t, hct⟩ := List.exists_cons_of_ne_nil (natToDecChars_ne_nil n.toNat)
    have hcdig : isDigitGo c = true := by
      apply natToDecChars_all_digits n.toNat
      rw [hct]; simp
    obtain ⟨hm, _, _⟩ := isDigitGo_ne_signs hcdig
    rw [hct]
    unfold decDecode
    split
    · rename_i rest heq
      exact absurd (List.head_eq_of_cons_eq heq) hm
    · rw [← hct, decValueNat_natToDecChars]
      omega

/-! ## Helper lemmas: locating the numeral inside a parsed string -/

theorem dropWhile_append_of_all {p : Char → Bool} (xs ys : GoStr)
    (h : ∀ c ∈ xs, p c = true) :
    (xs ++ ys).dropWhile p = ys.dropWhile p := by
  induction xs with
  | nil => simp
  | cons c t ih =>
    rw [List.cons_append, List.dropWhile_cons_of_pos (h c (by simp))]
    exact ih (fun x hx => h x (by simp [hx]))

theorem dropWhile_cons_ne {p : Char → Bool} (c : Char) (t : GoStr) (h : p c = false) :
    (c :: t).dropWhile p = c :: t :=
  List.dropWhile_cons_of_neg (by simp [h])

theorem intToDecChars_ne_nil (n : Int) : intToDecChars n ≠ [] := by
  unfold intToDecChars
  split
  · simp
  · exact natToDecChars_ne_nil _

theorem intToDecChars_head_not_space (n : Int) :
    ∃ c t, intToDecChars n = c :: t ∧ isSpaceGo c = false := by
  unfold intToDecChars
  split
  · exact ⟨'-', natToDecChars (-n).toNat, rfl, by decide⟩
  · obtain ⟨c, t, hct⟩ := List.exists_cons_of_ne_nil (natToDecChars_ne_nil n.toNat)
    have hd : isDigitGo c = true := by
      apply natToDecChars_all_digits
      rw [hct]; simp
    exact ⟨c, t, hct, (isDigitGo_ne_signs hd).2.2⟩

theorem natToDecChars_reverse_digit (m : Nat) :
    ∃ c t, (natToDecChars m).reverse = c :: t ∧ isDigitGo c = true := by
  have hne : (natToDecChars m).reverse ≠ [] := by
    simpa using natToDecChars_ne_nil m
  obtain ⟨c, t, hct⟩ := List.exists_cons_of_ne_nil hne
  have hcm : c ∈ natToDecChars m := by
    rw [← List.mem_reverse, hct]; simp
  exact ⟨c, t, hct, natToDecChars_all_digits m c hcm⟩

theorem intToDecChars_reverse_digit (n : Int) :
    ∃ c t, (intToDecChars n).reverse = c :: t ∧ isDigitGo c = true := by
  unfold intToDecChars
  split
  · obtain ⟨c, t, hct, hd⟩ := natToDecChars_reverse_digit (-n).toNat
    refine ⟨c, t ++ ['-'], ?_, hd⟩
    rw [List.reverse_cons, hct, List.cons_append]
  · exact natToDecChars_reverse_digit n.toNat

theorem numEnd_dec_suffix (n : Int) (suf : GoStr)
    (hnd : ∀ c ∈ suf, isDigitGo c = false) :
    numEnd (intToDecChars n ++ suf) = (intToDecChars n).length := by
  unfold numEnd
  rw [List.reverse_append]
  rw [dropWhile_append_of_all _ _
    (fun c hc => by simp [hnd c (List.mem_reverse.mp hc)])]
  obtain ⟨c, t, hct, hdig⟩ := intToDecChars_reverse_digit n
  rw [hct, dropWhile_cons_ne c t (by simp [hdig]), ← hct, List.length_reverse]

theorem trimSpace_dec_suffix (n : Int) (suf : GoStr) (c' : Char)
    (hlast : suf.getLast? = some c') (hns : isSpaceGo c' = false) :
    trimSpace (intToDecChars n ++ suf) = intToDecChars n ++ suf := by
  unfold trimSpace
  obtain ⟨c, t, hct, hcs⟩ := intToDecChars_head_not_space n
  rw [hct, List.cons_append, dropWhile_cons_ne _ _ hcs, ← List.cons_append, ← hct]
  have hsr : suf.reverse.head? = some c' := by
    rw [List.head?_reverse]; exact hlast
  obtain ⟨d, r, hdr⟩ : ∃ d r, suf.reverse = d :: r := by
    cases hsuf : suf.reverse with
    | nil => rw [hsuf] at hsr; simp at hsr
    | cons d r => exact ⟨d, r, rfl⟩
  have hd : d = c' := by
    rw [hdr] at hsr; simpa using hsr
  rw [List.reverse_append, hdr, List.cons_append, dropWhile_cons_ne _ _ (hd ▸ hns),
    ← List.cons_append, ← hdr, ← List.reverse_append, List.reverse_reverse]

theorem ParseSize_dec_suffix (n : Int) (h1 : minInt64 ≤ n) (h2 : n ≤ maxInt64)
    (suf : GoStr) (c' : Char)
    (hlast : suf.getLast? = some c') (hns : isSpaceGo c' = false)
    (hnd : ∀ c ∈ suf, isDigitGo c = false)
    (hts : trimSpace suf ≠ []) :
    ParseSize (intToDecChars n ++ suf) =
      (match unitLookup (normalizeUnit (trimSpace suf)) with
       | none => Except.error GoErr.invalidUnit
       | some mul => checkedScale n mul) := by
  unfold ParseSize
  rw [trimSpace_dec_suffix n suf c' hlast hns]
  simp only []
  rw [numEnd_dec_suffix n suf hnd]
  rw [if_neg (by simpa using intToDecChars_ne_nil n)]
  rw [List.take_left, List.drop_left, parseInt64_intToDecChars n h1 h2]
  rw [if_neg hts]

/-! ## Helper lemmas: the overflow guards of the scaling step -/

theorem tdiv_guard_pos {m n : Int} (hm : 0 < m) :
    maxInt64.tdiv m < n ↔ maxInt64 < n * m := by
  rw [Int.tdiv_eq_ediv (by unfold maxInt64; omega) hm.le]
  constructor
  · intro h
    by_contra hc
    push_neg at hc
    exact absurd ((Int.le_ediv_iff_mul_le hm).mpr hc) (not_le.mpr h)
  · intro h
    by_contra hc
    push_neg at hc
    exact absurd ((Int.le_ediv_iff_mul_le hm).mp hc) (not_le.mpr h)

theorem tdiv_guard_neg {m n : Int} (hm : 0 < m) :
    n < minInt64.tdiv m ↔ n * m < minInt64 := by
  have hrw : minInt64 = -(9223372036854775808 : Int) := rfl
  rw [hrw, Int.neg_tdiv]
  set k := (9223372036854775808 : Int).tdiv m with hk
  have hkm : k * m ≤ 9223372036854775808 := by
    rw [hk, Int.tdiv_eq_ediv (by norm_num) hm.le]
    exact Int.ediv_mul_le _ (by omega)
  have hkm2 : (9223372036854775808 : Int) < (k + 1) * m :=
    Int.lt_tdiv_add_one_mul_self _ hm
  have hexp : (k + 1) * m = k * m + m := by ring
  constructor
  · intro h
    have hle : n ≤ -k - 1 := by omega
    have hmul : n * m ≤ (-k - 1) * m := mul_le_mul_of_nonneg_right hle hm.le
    have hexp2 : (-k - 1) * m = -(k * m) - m := by ring
    omega
  · intro h
    by_contra hc
    push_neg at hc
    have hle : -k ≤ n := by omega
    have hmul : -k * m ≤ n * m := mul_le_mul_of_nonneg_right hle hm.le
    have hexp2 : -k * m = -(k * m) := by ring
    omega

theorem checkedScale_ok {n m : Int} (hm : 1 ≤ m)
    (hlo : minInt64 ≤ n * m) (hhi : n * m ≤ maxInt64) :
    checkedScale n m = .ok (n * m) := by
  have hm0 : 0 < m := by omega
  unfold checkedScale
  rw [if_neg (by
    simp only [Bool.and_eq_true, decide_eq_true_eq]
    rintro ⟨hn0, hg⟩
    exact absurd ((tdiv_guard_pos hm0).mp hg) (not_lt.mpr hhi))]
  rw [if_neg (by
    simp only [Bool.and_eq_true, decide_eq_true_eq]
    rintro ⟨hn0, hg⟩
    exact absurd ((tdiv_guard_neg hm0).mp hg) (not_lt.mpr hlo))]

theorem checkedScale_overflow {n m : Int} (hm : 1 ≤ m)
    (h : n * m < minInt64 ∨ maxInt64 < n * m) :
    checkedScale n m = .error .overflow := by
  have hm0 : 0 < m := by omega
  rcases h with h | h
  · have hn : n < 0 := by
      by_contra hc
      push_neg at hc
      have hge : 0 ≤ n * m := mul_nonneg hc hm0.le
      unfold minInt64 at h
      omega
    unfold checkedScale
    rw [if_neg (by
      simp only [Bool.and_eq_true, decide_eq_true_eq]
      rintro ⟨c1, _⟩
      omega)]
    rw [if_pos (by
      simp only [Bool.and_eq_true, decide_eq_true_eq]
      exact ⟨hn, (tdiv_guard_neg hm0).mpr h⟩)]
  · have hn : 0 < n := by
      by_contra hc
      push_neg at hc
      have hle : n * m ≤ 0 * m := mul_le_mul_of_nonneg_right hc hm0.le
      unfold maxInt64 at h
      omega
    unfold checkedScale
    rw [if_pos (by
      simp only [Bool.and_eq_true, decide_eq_true_eq]
      exact ⟨hn, (tdiv_guard_pos hm0).mpr h⟩)]

/-! ## Helper lemmas: unit-table lookup facts -/

theorem unitLookup_mem {u : GoStr} {m : Int} (h : unitLookup u = some m) :
    (u, m) ∈ UnitTable := by
  unfold unitLookup at h
  rw [Option.map_eq_some'] at h
  obtain ⟨e, hfind, hm⟩ := h
  have hmem := List.mem_of_find?_eq_some hfind
  have hp : e.1 = u := by simpa using List.find?_some hfind
  have he : e = (u, m) := by
    cases e
    simp_all
  rwa [he] at hmem

theorem unitLookup_pos {u : GoStr} {m : Int} (h : unitLookup u = some m) : 1 ≤ m := by
  have hmem := unitLookup_mem h
  have hall : ∀ e ∈ UnitTable, 1 ≤ e.2 := by decide
  simpa using hall (u, m) hmem

/-! ## Helper lemmas: best-unit selection over the family lists -/

theorem filter_eq_takeWhile_le (L : List UnitPair) (d : Int)
    (hs : L.Pairwise (fun p q => p.value ≤ q.value)) :
    L.filter (fun p => decide (p.value ≤ d)) =
      L.takeWhile (fun p => decide (p.value ≤ d)) := by
  induction L with
  | nil => simp
  | cons x t ih =>
    rw [List.pairwise_cons] at hs
    by_cases hx : x.value ≤ d
    · rw [List.filter_cons_of_pos (by simpa using hx),
        List.takeWhile_cons_of_pos (by simpa using hx), ih hs.2]
    · rw [List.filter_cons_of_neg (by simpa using hx),
        List.takeWhile_cons_of_neg (by simpa using hx)]
      apply List.filter_eq_nil_iff.mpr
      intro p hp
      simp only [decide_eq_true_eq]
      have := hs.1 p hp
      omega

theorem getLastD_takeWhile_ge_head (x : UnitPair) (l : List UnitPair)
    (f : UnitPair → Bool)
    (hall : ∀ p ∈ l, x.value ≤ p.value) :
    x.value ≤ ((l.takeWhile f).getLastD x).value := by
  cases h : l.takeWhile f with
  | nil => simp
  | cons y ys =>
    have hne : (y :: ys : List UnitPair) ≠ [] := by simp
    rw [List.getLastD_eq_getLast?, List.getLast?_eq_getLast _ hne]
    simp only [Option.getD_some]
    apply hall
    have hmem : (y :: ys).getLast hne ∈ l.takeWhile f := by
      rw [h]
      exact List.getLast_mem hne
    exact (List.takeWhile_sublist f).subset hmem

theorem takeWhile_getLastD_mono (t : List UnitPair) :
    ∀ (x : UnitPair) (a b : Int),
      (x :: t).Pairwise (fun p q => p.value ≤ q.value) → a ≤ b →
      ((((x :: t).takeWhile (fun p => decide (p.value ≤ a))).getLastD x).value ≤
       (((x :: t).takeWhile (fun p => decide (p.value ≤ b))).getLastD x).value) := by
  induction t with
  | nil =>
    intro x a b hs hab
    by_cases h1 : x.value ≤ a <;> by_cases h2 : x.value ≤ b <;>
      simp [List.takeWhile_cons, h1, h2]
  | cons y ys ih =>
    intro x a b hs hab
    rw [List.pairwise_cons] at hs
    by_cases hxa : x.value ≤ a
    · have hxb : x.value ≤ b := le_trans hxa hab
      have exa : (x :: y :: ys).takeWhile (fun p => decide (p.value ≤ a)) =
          x :: (y :: ys).takeWhile (fun p => decide (p.value ≤ a)) :=
        List.takeWhile_cons_of_pos (by simpa using hxa)
      have exb : (x :: y :: ys).takeWhile (fun p => decide (p.value ≤ b)) =
          x :: (y :: ys).takeWhile (fun p => decide (p.value ≤ b)) :=
        List.takeWhile_cons_of_pos (by simpa using hxb)
      rw [exa, exb, List.getLastD_cons, List.getLastD_cons]
      by_cases hya : y.value ≤ a
      · have hyb : y.value ≤ b := le_trans hya hab
        have eya : (y :: ys).takeWhile (fun p => decide (p.value ≤ a)) =
            y :: ys.takeWhile (fun p => decide (p.value ≤ a)) :=
          List.takeWhile_cons_of_pos (by simpa using hya)
        have eyb : (y :: ys).takeWhile (fun p => decide (p.value ≤ b)) =
            y :: ys.takeWhile (fun p => decide (p.value ≤ b)) :=
          List.takeWhile_cons_of_pos (by simpa using hyb)
        have h := ih y a b hs.2 hab
        rw [eya, eyb, List.getLastD_cons, List.getLastD_cons] at h ⊢
        exact h
      · have eya : (y :: ys).takeWhile (fun p => decide (p.value ≤ a)) = [] :=
          List.takeWhile_cons_of_neg (by simpa using hya)
        rw [eya, List.getLastD_nil]
        exact getLastD_takeWhile_ge_head x (y :: ys) _ hs.1
    · have exa : (x :: y :: ys).takeWhile (fun p => decide (p.value ≤ a)) = [] :=
        List.takeWhile_cons_of_neg (by simpa using hxa)
      rw [exa, List.getLastD_nil]
      by_cases hxb : x.value ≤ b
      · have exb : (x :: y :: ys).takeWhile (fun p => decide (p.value ≤ b)) =
            x :: (y :: ys).takeWhile (fun p => decide (p.value ≤ b)) :=
          List.takeWhile_cons_of_pos (by simpa using hxb)
        rw [exb, List.getLastD_cons]
        exact getLastD_takeWhile_ge_head x (y :: ys) _ hs.1
      · have exb : (x :: y :: ys).takeWhile (fun p => decide (p.value ≤ b)) = [] :=
          List.takeWhile_cons_of_neg (by simpa using hxb)
        rw [exb, List.getLastD_nil]

theorem lastItem_filter_spec (x : UnitPair) (t : List UnitPair) (d : Int)
    (hs : (x :: t).Pairwise (fun p q => p.value ≤ q.value)) :
    LastItemFunc (x :: t) (fun p => decide (p.value ≤ d)) =
      (((x :: t).filter (fun p => decide (p.value ≤ d))).getLast?).getD x := by
  rw [filter_eq_takeWhile_le _ d hs]
  simp only [LastItemFunc]
  rw [List.getLastD_eq_getLast?]

theorem lastItem_spec_form (x : UnitPair) (t : List UnitPair) (d : Int)
    (hs : (x :: t).Pairwise (fun p q => p.value ≤ q.value)) :
    (LastItemFunc (x :: t) (fun p => decide (p.value ≤ d))).name =
      (match ((x :: t).filter (fun p => decide (p.value ≤ d))).getLast? with
       | some p => p.name
       | none => ((x :: t).headD { name := [], value := 0 }).name) := by
  rw [lastItem_filter_spec x t d hs]
  cases hgl : ((x :: t).filter (fun p => decide (p.value ≤ d))).getLast? with
  | none => simp
  | some p => simp

/-! ## Claim theorems -/

/-- C1: the claim states that ParseSize resolves the suffixes "kb" and
"Kb" to the same scale, the metric kilobit (125 bytes).  The code
disagrees with its own unit table: the all-lowercase normalization
rewrites "kb" to "KB" before lookup, so "1kb" parses as 1000 bytes (a
metric kilobyte) even though UnitTable maps the key "kb" to 125 bytes,
while "1Kb" parses as 125 bytes.  The table's "kb" entry is unreachable
from ParseSize. -/
theorem parseSize_lowercase_kb_divergence :
    ParseSize "1kb".toList = .ok 1000 ∧
    ParseSize "1Kb".toList = .ok 125 ∧
    unitLookup "kb".toList = some 125 ∧
    normalizeUnit "kb".toList = "KB".toList := by
  refine ⟨?_, ?_, ?_, ?_⟩ <;> decide

/-- C2 counterexample: with the negative amount -1 and the non-negative
duration 0, NewSpeedE returns speed 0 with no error — the zero-duration
rule fires before the negative-amount check — refuting the claim as
stated for duration 0. -/
theorem newSpeedE_neg_amount_zero_dur : NewSpeedE (-1) 0 = .ok 0 := by decide

/-- C2 (amended): for every negative amount and every positive duration,
NewSpeedE returns the negative-amount error and never a constructed
Speed. -/
theorem newSpeedE_neg_amount_err (amount dur : Int)
    (ha : amount < 0) (hd : 0 < dur) :
    NewSpeedE amount dur = .error .negativeAmount := by
  unfold NewSpeedE
  rw [if_neg (by omega), if_neg (by omega), if_pos ha]

/-- C2 witness: the amended theorem applied at amount -5, duration 2. -/
theorem newSpeedE_neg_amount_err_witness :
    (-5 : Int) < 0 ∧ (0 : Int) < 2 ∧ NewSpeedE (-5) 2 = .error .negativeAmount :=
  ⟨by decide, by decide, newSpeedE_neg_amount_err (-5) 2 (by decide) (by decide)⟩

/-- C3: for every in-range numeral and every recognized scale factor, the
scaling step of ParseSize returns the exact product when it fits the
signed 64-bit range and the overflow error otherwise — never a wrapped
value; the bound is established by the truncating-division guards before
multiplying. -/
theorem parseSize_scaling_exact (u : GoStr) (n m : Int)
    (hu : unitLookup u = some m) (h1 : minInt64 ≤ n) (h2 : n ≤ maxInt64) :
    (minInt64 ≤ n * m ∧ n * m ≤ maxInt64 → checkedScale n m = .ok (n * m)) ∧
    (n * m < minInt64 ∨ maxInt64 < n * m → checkedScale n m = .error .overflow) := by
  have hm := unitLookup_pos hu
  exact ⟨fun h => checkedScale_ok hm h.1 h.2, fun h => checkedScale_overflow hm h⟩

/-- C3 witness: the theorem applied to the numeral 5 and the unit "KB". -/
theorem parseSize_scaling_exact_witness :
    unitLookup "KB".toList = some 1000 ∧ minInt64 ≤ (5 : Int) ∧ (5 : Int) ≤ maxInt64 ∧
    checkedScale 5 1000 = .ok 5000 := by
  refine ⟨by decide, by decide, by decide, ?_⟩
  have h := (parseSize_scaling_exact "KB".toList 5 1000 (by decide) (by decide)
    (by decide)).1 (by constructor <;> decide)
  simpa using h

/-- C8: for every non-negative amount and positive duration, NewSpeedE
returns the overflow error when amount times the ticks-per-second
constant exceeds the maximum signed 64-bit value, and otherwise the
truncating integer quotient of that product by the duration. -/
theorem newSpeedE_overflow_guard (amount dur : Int)
    (ha : 0 ≤ amount) (hd : 0 < dur) :
    (maxInt64 < amount * second → NewSpeedE amount dur = .error .overflow) ∧
    (amount * second ≤ maxInt64 → NewSpeedE amount dur = .ok ((amount * second).tdiv dur)) := by
  have hq : maxInt64.tdiv second = 9223372036 := by decide
  constructor
  · intro h
    have hguard : amount > maxInt64.tdiv second := by
      rw [hq]
      unfold maxInt64 second at h
      omega
    unfold NewSpeedE
    rw [if_neg (by omega), if_neg (by omega), if_neg (by omega), if_pos hguard]
  · intro h
    have hguard : ¬ amount > maxInt64.tdiv second := by
      rw [hq]
      unfold maxInt64 second at h
      omega
    unfold NewSpeedE
    rw [if_neg (by omega), if_neg (by omega), if_neg (by omega), if_neg hguard]

/-- C4: round-trip at the base byte unit with zero precision: for every
int64 value n, FormatUnitString renders "n B" and ParseSize recovers
exactly n, including 0, negatives, and both 64-bit extremes. -/
theorem formatB_roundtrip (n : Int) (h1 : minInt64 ≤ n) (h2 : n ≤ maxInt64) :
    FormatUnitString n "B".toList [] = some (intToDecChars n ++ ' ' :: "B".toList) ∧
    ParseSize (intToDecChars n ++ ' ' :: "B".toList) = .ok n := by
  constructor
  · unfold FormatUnitString
    by_cases hz : n = 0
    · subst hz
      rw [if_pos rfl]
      decide
    · rw [if_neg hz]
      simp only [OptionalValue]
      simp
  · have h := ParseSize_dec_suffix n h1 h2 (' ' :: "B".toList) 'B'
      (by decide) (by decide) (by decide) (by decide)
    rw [h]
    have hl : unitLookup (normalizeUnit (trimSpace (' ' :: "B".toList))) = some 1 := by
      decide
    rw [hl]
    have hok := checkedScale_ok (n := n) (m := 1) (by norm_num) (by omega) (by omega)
    simpa using hok

/-- C4 witness: round-trip at n = -3. -/
theorem formatB_roundtrip_witness :
    minInt64 ≤ (-3 : Int) ∧ (-3 : Int) ≤ maxInt64 ∧
    ParseSize (intToDecChars (-3) ++ ' ' :: "B".toList) = .ok (-3) :=
  ⟨by decide, by decide, (formatB_roundtrip (-3) (by decide) (by decide)).2⟩

/-- C5: rendering a nonzero Size at the bit base unit with zero precision
produces the decimal representation of the exact unbounded integer 8 * d
followed by " b"; the second conjunct certifies exactness by decoding the
rendered numeral back to 8 * d with unbounded arithmetic. -/
theorem format_bit_exact (d : Int) (h1 : minInt64 ≤ d) (h2 : d ≤ maxInt64)
    (hz : d ≠ 0) :
    FormatUnitString d "b".toList [] = some (intToDecChars (8 * d) ++ ' ' :: "b".toList) ∧
    decDecode (intToDecChars (8 * d)) = 8 * d := by
  constructor
  · unfold FormatUnitString
    rw [if_neg hz]
    simp only [OptionalValue]
    simp
  · exact decDecode_intToDecChars (8 * d)

/-- C5 witness: FormatUnitString at 1 byte renders "8 b". -/
theorem format_bit_exact_witness :
    minInt64 ≤ (1 : Int) ∧ (1 : Int) ≤ maxInt64 ∧ (1 : Int) ≠ 0 ∧
    FormatUnitString 1 "b".toList [] = some ("8 b".toList) := by
  refine ⟨by decide, by decide, by decide, ?_⟩
  have h := (format_bit_exact 1 (by decide) (by decide) (by decide)).1
  rw [h]
  decide

/-- C10: for every in-range numeral, the lowercase suffix "b" parses to
bytes exactly as "B" does, because the normalization upper-cases "b" to
"B" while the unit table has no "b" key; and every scale the table can
produce is at least one byte, so no suffix parses to the bit base
scale. -/
theorem parseSize_lowercase_b (n : Int) (h1 : minInt64 ≤ n) (h2 : n ≤ maxInt64) :
    ParseSize (intToDecChars n ++ "b".toList) = .ok n ∧
    ParseSize (intToDecChars n ++ "B".toList) = .ok n ∧
    normalizeUnit "b".toList = "B".toList ∧
    unitLookup "b".toList = none ∧
    (∀ u m, unitLookup u = some m → 1 ≤ m) := by
  refine ⟨?_, ?_, by decide, by decide, fun u m h => unitLookup_pos h⟩
  · have h := ParseSize_dec_suffix n h1 h2 "b".toList 'b'
      (by decide) (by decide) (by decide) (by decide)
    rw [h]
    have hl : unitLookup (normalizeUnit (trimSpace "b".toList)) = some 1 := by decide
    rw [hl]
    have hok := checkedScale_ok (n := n) (m := 1) (by norm_num) (by omega) (by omega)
    simpa using hok
  · have h := ParseSize_dec_suffix n h1 h2 "B".toList 'B'
      (by decide) (by decide) (by decide) (by decide)
    rw [h]
    have hl : unitLookup (normalizeUnit (trimSpace "B".toList)) = some 1 := by decide
    rw [hl]
    have hok := checkedScale_ok (n := n) (m := 1) (by norm_num) (by omega) (by omega)
    simpa using hok

/-- C10 witness: the theorem applied at n = 7. -/
theorem parseSize_lowercase_b_witness :
    minInt64 ≤ (7 : Int) ∧ (7 : Int) ≤ maxInt64 ∧
    ParseSize (intToDecChars 7 ++ "b".toList) = .ok 7 :=
  ⟨by decide, by decide, (parseSize_lowercase_b 7 (by decide) (by decide)).1⟩

/-- C6: for every Size and every family, the scan of bestUnit agrees
with the specification's description — the name of the largest unit whose
threshold is at most the value, with the base unit as fallback below
every threshold — and the two concrete cases at 1023 and 1024 bytes in
the binary-byte family hold. -/
theorem bestUnit_eq_spec :
    (∀ (d : Int) (u : FormatUnit), bestUnit d u = bestUnitSpec d u) ∧
    bestUnit 1023 FormatUnit.FormatBinaryByte = "B".toList ∧
    bestUnit 1024 FormatUnit.FormatBinaryByte = "kiB".toList := by
  refine ⟨?_, by decide, by decide⟩
  intro d u
  cases u <;>
  · simp only [bestUnit, bestPair, bestUnitSpec, familyList, binaryBytes, metricBytes,
      binaryBits, metricBits]
    exact lastItem_spec_form _ _ d (by decide)

/-- C7: within each family, the threshold of the unit selected by
bestUnit is monotone in the value. -/
theorem bestUnit_threshold_monotone (u : FormatUnit) (a b : Int)
    (h0 : 0 ≤ a) (hab : a ≤ b) :
    (bestPair a u).value ≤ (bestPair b u).value := by
  cases u <;>
  · simp only [bestPair, familyList, LastItemFunc, binaryBytes, metricBytes,
      binaryBits, metricBits]
    exact takeWhile_getLastD_mono _ _ a b (by decide) hab

/-- C7 witness: the theorem applied at 0 and 2048 in the binary-byte
family. -/
theorem bestUnit_threshold_monotone_witness :
    (0 : Int) ≤ 0 ∧ (0 : Int) ≤ 2048 ∧
    (bestPair 0 FormatUnit.FormatBinaryByte).value ≤
      (bestPair 2048 FormatUnit.FormatBinaryByte).value :=
  ⟨by decide, by decide,
    bestUnit_threshold_monotone FormatUnit.FormatBinaryByte 0 2048 (by decide) (by decide)⟩

/-- C9 counterexample: the binary-bit family stops at the pebi scale —
its table has exactly the six entries "b" through "Pib" and contains no
entry at or above the exbi-bit threshold (EiB / 8), so the claim that
all four families reach the exa scale is false. -/
theorem binaryBits_no_exa :
    binaryBits.map (fun p => p.name) =
      ["b".toList, "kib".toList, "Mib".toList, "Gib".toList, "Tib".toList, "Pib".toList] ∧
    ¬ (∃ p ∈ binaryBits, EiB / 8 ≤ p.value) := by
  exact ⟨by decide, by decide⟩

/-- C9 (amended): the named unit constants satisfy the claimed relations
— metric steps are times 1000, binary steps are times 1024, and each bit
constant is exactly one eighth of its byte counterpart — through the exa
scale for the metric-byte, binary-byte and metric-bit families and
through the pebi scale for the binary-bit family (which has no exbi
constant); each family's formatting table is strictly ascending and
starts at its base unit. -/
theorem unit_constants_families :
    (KB = 1000 * Byte ∧ MB = 1000 * KB ∧ GB = 1000 * MB ∧
     TB = 1000 * GB ∧ PB = 1000 * TB ∧ EB = 1000 * PB) ∧
    (KiB = 1024 * Byte ∧ MiB = 1024 * KiB ∧ GiB = 1024 * MiB ∧
     TiB = 1024 * GiB ∧ PiB = 1024 * TiB ∧ EiB = 1024 * PiB) ∧
    (8 * Kb = KB ∧ 8 * Mb = MB ∧ 8 * Gb = GB ∧
     8 * Tb = TB ∧ 8 * Pb = PB ∧ 8 * Eb = EB) ∧
    (8 * Kib = KiB ∧ 8 * Mib = MiB ∧ 8 * Gib = GiB ∧
     8 * Tib = TiB ∧ 8 * Pib = PiB) ∧
    (List.Pairwise (fun p q => p.value < q.value) metricBytes ∧
     List.Pairwise (fun p q => p.value < q.value) metricBits ∧
     List.Pairwise (fun p q => p.value < q.value) binaryBytes ∧
     List.Pairwise (fun p q => p.value < q.value) binaryBits) ∧
    (metricBytes.head? = some { name := "B".toList, value := Byte } ∧
     metricBits.head? = some { name := "b".toList, value := 0 } ∧
     binaryBytes.head? = some { name := "B".toList, value := Byte } ∧
     binaryBits.head? = some { name := "b".toList, value := 0 }) := by
  refine ⟨by decide, by decide, by decide, by decide, by decide, by decide⟩

/-- C8 witness: the theorem applied at amount 1, duration 1 second. -/
theorem newSpeedE_overflow_guard_witness :
    (0 : Int) ≤ 1 ∧ (0 : Int) < 1 ∧ NewSpeedE 1 1 = .ok 1000000000 := by
  refine ⟨by decide, by decide, ?_⟩
  have h := (newSpeedE_overflow_guard 1 1 (by decide) (by decide)).2 (by decide)
  rw [h]
  decide

end RealGo
